import Mathlib

/-
Verification of the numeric core of PyMotorTable's Radiography_Process module.

The source operates element-wise on numpy float arrays.  We model scalar
floating-point values by the domain NFloat: a finite real number, positive or
negative infinity, or NaN, with the IEEE-754 special-value propagation rules
for the operations the source uses (rounding error and signed zero are not
modeled; a finite value is an exact real).  One-dimensional numpy arrays are
modeled as lists of NFloat; the multi-dimensional behaviour of
fcorrect_deadtime is modeled separately by an explicit shape-carrying NDArray
type.  The transmission / extinction-length / density functions involve no
special-value claims and are modeled over plain real lists.
-/

/-- Model of a numpy float64 scalar: NaN, plus or minus infinity, or a finite
real value (rounding is not modeled). -/
inductive NFloat : Type where
  | nan : NFloat
  | inf : NFloat
  | ninf : NFloat
  | fin : ℝ → NFloat

namespace NFloat

/-- IEEE negation. -/
noncomputable def neg : NFloat → NFloat
  | nan => nan
  | inf => ninf
  | ninf => inf
  | fin x => fin (-x)

/-- IEEE subtraction (used by the baseline step x - min). -/
noncomputable def sub : NFloat → NFloat → NFloat
  | nan, _ => nan
  | _, nan => nan
  | inf, inf => nan
  | inf, _ => inf
  | ninf, ninf => nan
  | ninf, _ => ninf
  | fin _, inf => ninf
  | fin _, ninf => inf
  | fin x, fin y => fin (x - y)

/-- IEEE multiplication. -/
noncomputable def mul : NFloat → NFloat → NFloat
  | nan, _ => nan
  | _, nan => nan
  | inf, inf => inf
  | inf, ninf => ninf
  | ninf, inf => ninf
  | ninf, ninf => inf
  | inf, fin y => if y = 0 then nan else if y < 0 then ninf else inf
  | ninf, fin y => if y = 0 then nan else if y < 0 then inf else ninf
  | fin x, inf => if x = 0 then nan else if x < 0 then ninf else inf
  | fin x, ninf => if x = 0 then nan else if x < 0 then inf else ninf
  | fin x, fin y => fin (x * y)

/-- IEEE division; the unsigned finite zero is treated as +0, as numpy
produces for these computations on count data. -/
noncomputable def div : NFloat → NFloat → NFloat
  | nan, _ => nan
  | _, nan => nan
  | inf, inf => nan
  | inf, ninf => nan
  | ninf, inf => nan
  | ninf, ninf => nan
  | inf, fin y => if y < 0 then ninf else inf
  | ninf, fin y => if y < 0 then inf else ninf
  | fin _, inf => fin 0
  | fin _, ninf => fin 0
  | fin x, fin y =>
      if y = 0 then (if x = 0 then nan else if x < 0 then ninf else inf)
      else fin (x / y)

/-- IEEE exponential (np.exp). -/
noncomputable def exp : NFloat → NFloat
  | nan => nan
  | inf => inf
  | ninf => fin 0
  | fin x => fin (Real.exp x)

/-- IEEE natural logarithm (np.log): log of a negative value is NaN, log of
zero is -inf. -/
noncomputable def log : NFloat → NFloat
  | nan => nan
  | inf => inf
  | ninf => nan
  | fin x => if 0 < x then fin (Real.log x) else if x = 0 then ninf else nan

/-- Largest finite float64, the value np.nan_to_num substitutes for +inf. -/
noncomputable def float_max_val : ℝ := 1.7976931348623157e308

/-- np.nan_to_num with default arguments: NaN becomes 0, infinities become
the extreme finite floats. -/
noncomputable def nan_to_num : NFloat → NFloat
  | nan => fin 0
  | inf => fin float_max_val
  | ninf => fin (-float_max_val)
  | fin x => fin x

/-- Pairwise minimum with NaN propagation, as np.minimum (the reduction
kernel of np.min) behaves. -/
noncomputable def min : NFloat → NFloat → NFloat
  | nan, _ => nan
  | _, nan => nan
  | ninf, _ => ninf
  | _, ninf => ninf
  | inf, y => y
  | x, inf => x
  | fin x, fin y => fin (Min.min x y)

/-- Conversion of a float to the exact real it carries; fails on the special
values (scipy's brentq raises on a NaN or infinite bracket endpoint). -/
def toReal : NFloat → Option ℝ
  | fin x => some x
  | _ => none

end NFloat

/-- np.min over a 1-D array: the reduction of NFloat.min over the elements.
The source never applies it to an empty array; numpy would raise there and
we return none. -/
noncomputable def listMinNF : List NFloat → Option NFloat
  | [] => none
  | x :: xs => some (xs.foldl NFloat.min x)

/-- Left-to-right effectful map over Option, modeling a Python loop that
stops at the first raised error. -/
def traverseOption (f : α → Option β) : List α → Option (List β)
  | [] => some []
  | x :: xs => do
      let y ← f x
      let ys ← traverseOption f xs
      return y :: ys

/-
The transmission / extinction-length / density cluster.  These functions
use only field arithmetic, sorting and the logarithm; none of the claims
about them concern IEEE special values, so they are modeled over plain
real lists (one float per element, exact arithmetic).
-/

/-- Maximum of a real list (none on the empty list). -/
noncomputable def listMax : List ℝ → Option ℝ
  | [] => none
  | x :: xs => some (xs.foldl max x)

/-- Spec-side notion of the second-largest value of a list, in the multiset
sense: remove one occurrence of the maximum, then take the maximum of what
is left.  Written from the spec's words "divides by its second-largest
value", independently of the code's sort-and-index mechanism, so that the
two can be compared. -/
noncomputable def secondLargest (l : List ℝ) : Option ℝ :=
  match listMax l with
  | none => none
  | some m => listMax (l.erase m)

/-- Dark-current-corrected ratio (PIN - PIN_dark) / (reference - ref_dark),
the first line of fcompute_transmission. -/
noncomputable def dark_ratio (PIN reference : List ℝ) (PIN_dark ref_dark : ℝ) : List ℝ :=
  List.zipWith (fun p r => (p - PIN_dark) / (r - ref_dark)) PIN reference

/-- The auto-normalization divisor used by fcompute_transmission:
the element of index -2 (or -1 for a single-element array) of the
ascending-sorted ratio, that is sorted(transmission)[-2 if len>1 else -1].
The source raises IndexError on an empty array; here the out-of-range
default 0 stands for that never-used case. -/
noncomputable def auto_divisor (t : List ℝ) : ℝ :=
  let s := List.insertionSort (fun a b => a ≤ b) t
  if 1 < t.length then s.getD (t.length - 2) 0 else s.getD (t.length - 1) 0

/-- fcompute_transmission: dark-corrected ratio, then normalization either
by the caller's clear_ratio (when nonzero, Python truthiness) or by the
second-to-max sorted value. -/
noncomputable def fcompute_transmission (PIN reference : List ℝ)
    (clear_ratio PIN_dark ref_dark : ℝ) : List ℝ :=
  let transmission := dark_ratio PIN reference PIN_dark ref_dark
  if clear_ratio ≠ 0 then transmission.map (fun x => x / clear_ratio)
  else transmission.map (fun x => x / auto_divisor transmission)

/-- fcompute_extinction_lengths: -log of the (absolute, when abs_value)
transmission. -/
noncomputable def fcompute_extinction_lengths (PIN reference : List ℝ)
    (clear_ratio PIN_dark ref_dark : ℝ) (abs_value : Bool) : List ℝ :=
  if abs_value then
    (fcompute_transmission PIN reference clear_ratio PIN_dark ref_dark).map
      (fun x => -Real.log |x|)
  else
    (fcompute_transmission PIN reference clear_ratio PIN_dark ref_dark).map
      (fun x => -Real.log x)

/-- fcompute_radiography_density: extinction lengths over the absorption
coefficient; Python returns None when abs_coeff is falsy (zero), modeled by
the Option sentinel. -/
noncomputable def fcompute_radiography_density (PIN reference : List ℝ)
    (clear_ratio PIN_dark ref_dark abs_coeff : ℝ) : Option (List ℝ) :=
  if abs_coeff ≠ 0 then
    some ((fcompute_extinction_lengths PIN reference clear_ratio PIN_dark ref_dark true).map
      (fun x => x / abs_coeff))
  else none

/-
The fluorescence cluster, over lists of NFloat.
-/

/-- fdead_time_zero_function: the dead-time residual
actual * exp(-time_constant * actual) - observed, the objective handed to
brentq.  brentq works on scalars, so this is a plain real function. -/
noncomputable def fdead_time_zero_function
    (actual_countrate observed_countrate time_constant : ℝ) : ℝ :=
  actual_countrate * Real.exp (-time_constant * actual_countrate) - observed_countrate

/-- What the source's brentq call demands of a result: a root of the
dead-time residual inside the hardcoded bracket
[observed - 50000, observed + 1e5]. -/
noncomputable def deadtime_bracket_root (observed_rate time_constant r : ℝ) : Prop :=
  observed_rate - 50000 ≤ r ∧ r ≤ observed_rate + 100000 ∧
    fdead_time_zero_function r observed_rate time_constant = 0

/-- Elementwise mask ext_lengths > 1e-5 (IEEE comparison: false on NaN). -/
def nf_is_sig (x : NFloat) : Prop :=
  match x with
  | NFloat.fin r => 1e-5 < r
  | NFloat.inf => True
  | NFloat.ninf => False
  | NFloat.nan => False

noncomputable instance : DecidablePred nf_is_sig := fun x => by
  unfold nf_is_sig; cases x <;> infer_instance

/-- fcorrect_incident_intensity_colocated: start from np.ones_like, and on
the mask ext > 1e-5 assign (1 - exp(-ext)) / ext. -/
noncomputable def fcorrect_incident_intensity_colocated (ext_lengths : List NFloat) :
    List NFloat :=
  ext_lengths.map (fun L =>
    if nf_is_sig L then
      NFloat.div (NFloat.sub (NFloat.fin 1) (NFloat.exp (NFloat.neg L))) L
    else NFloat.fin 1)

/-- The intensity-correction block written out inline inside
fcompute_fluorescence_fit_fast (source lines 82-87): np.ones_like, the mask
ext > 1e-5, and the masked assignment of (1 - exp(-ext)) / ext. -/
noncomputable def fit_fast_inline_intensity_correction (ext_lengths : List NFloat) :
    List NFloat :=
  ext_lengths.map (fun L =>
    if nf_is_sig L then
      NFloat.div (NFloat.sub (NFloat.fin 1) (NFloat.exp (NFloat.neg L))) L
    else NFloat.fin 1)

/-- fcorrect_deadtime on one-dimensional arrays (where flatten is the
identity and the discarded reshape of the source has no effect; the
multi-dimensional behaviour is modeled separately by fcorrect_deadtime_nd).
brentq is an oracle parameter: given the objective, the bracket ends and the
extra arguments (observed rate, time constant), it may return a float or
raise (none).  A NaN or infinite bracket endpoint makes brentq raise. -/
noncomputable def fcorrect_deadtime_flat
    (brentq : (ℝ → ℝ → ℝ → ℝ) → ℝ → ℝ → ℝ → ℝ → Option ℝ)
    (raw_fluorescence slow_events fast_events : List NFloat)
    (integration_time fast_filter_time_constant : ℝ) : Option (List NFloat) := do
  let fast_countrate := fast_events.map
    (fun x => NFloat.div x (NFloat.fin integration_time))
  let fitted_fast_countrate ← traverseOption (fun x => do
    let v ← NFloat.toReal x
    brentq fdead_time_zero_function (v - 50000) (v + 100000) v fast_filter_time_constant)
    fast_countrate
  let live_time := (List.zipWith NFloat.div slow_events
      (fitted_fast_countrate.map NFloat.fin)).map
    (fun x => NFloat.nan_to_num (NFloat.div x (NFloat.fin integration_time)))
  return List.zipWith NFloat.div raw_fluorescence live_time

/-- The stages of fcompute_fluorescence_fit_fast after the dead-time
correction: divide by reference, build extinction lengths from radiography,
divide by the inline intensity correction, optionally subtract the minimum. -/
noncomputable def fit_fast_post (final0 radiography reference : List NFloat)
    (abs_coeff : ℝ) (baseline : Bool) : List NFloat :=
  let f1 := List.zipWith NFloat.div final0 reference
  let ext_lengths :=
    if abs_coeff ≠ 0 then radiography.map (fun x => NFloat.mul x (NFloat.fin abs_coeff))
    else radiography.map (fun x => NFloat.neg (NFloat.log x))
  let intensity_correction := fit_fast_inline_intensity_correction ext_lengths
  let f2 := List.zipWith NFloat.div f1 intensity_correction
  if baseline then
    match listMinNF f2 with
    | some m => f2.map (fun x => NFloat.sub x m)
    | none => f2
  else f2

/-- fcompute_fluorescence_fit_fast: dead-time correction via the brentq
root-solve, then the post stages. -/
noncomputable def fcompute_fluorescence_fit_fast
    (brentq : (ℝ → ℝ → ℝ → ℝ) → ℝ → ℝ → ℝ → ℝ → Option ℝ)
    (raw_fluorescence slow_events fast_events radiography reference : List NFloat)
    (integration_time abs_coeff : ℝ) (baseline : Bool) (time_const : ℝ) :
    Option (List NFloat) :=
  (fcorrect_deadtime_flat brentq raw_fluorescence slow_events fast_events
      integration_time time_const).map
    (fun f => fit_fast_post f radiography reference abs_coeff baseline)

/-- fcompute_fluorescence: the non-root-finding variant.  Live time is
nan_to_num(slow/fast) directly; then divide by reference, divide by the
incident-intensity correction of the extinction lengths from radiography,
optionally subtract the minimum. -/
noncomputable def fcompute_fluorescence
    (raw_fluorescence slow_events fast_events radiography reference : List NFloat)
    (abs_coeff : ℝ) (baseline : Bool) : List NFloat :=
  let live_time := (List.zipWith NFloat.div slow_events fast_events).map NFloat.nan_to_num
  let final1 := List.zipWith NFloat.div raw_fluorescence live_time
  let final2 := List.zipWith NFloat.div final1 reference
  let ext_lengths :=
    if abs_coeff ≠ 0 then radiography.map (fun x => NFloat.mul x (NFloat.fin abs_coeff))
    else radiography.map (fun x => NFloat.neg (NFloat.log x))
  let intensity_correction := fcorrect_incident_intensity_colocated ext_lengths
  let final3 := List.zipWith NFloat.div final2 intensity_correction
  if baseline then
    match listMinNF final3 with
    | some m => final3.map (fun x => NFloat.sub x m)
    | none => final3
  else final3

/-- Default of the time_const keyword of fcompute_fluorescence_fit_fast. -/
noncomputable def fit_fast_default_time_const : ℝ := 3.13e-7

/-- Default of the fast_filter_time_constant keyword of fcorrect_deadtime. -/
noncomputable def deadtime_default_time_constant : ℝ := 3.15e-7

/-- fcompute_fluorescence_fit_fast called with every keyword left at its
default (integration_time=1, abs_coeff=0, baseline=False, time_const=3.13e-7). -/
noncomputable def fcompute_fluorescence_fit_fast_defaults
    (brentq : (ℝ → ℝ → ℝ → ℝ) → ℝ → ℝ → ℝ → ℝ → Option ℝ)
    (raw_fluorescence slow_events fast_events radiography reference : List NFloat) :
    Option (List NFloat) :=
  fcompute_fluorescence_fit_fast brentq raw_fluorescence slow_events fast_events
    radiography reference 1 0 false fit_fast_default_time_const

/-- fcorrect_deadtime called with its keyword left at its default
(fast_filter_time_constant=3.15e-7). -/
noncomputable def fcorrect_deadtime_flat_defaults
    (brentq : (ℝ → ℝ → ℝ → ℝ) → ℝ → ℝ → ℝ → ℝ → Option ℝ)
    (raw_fluorescence slow_events fast_events : List NFloat)
    (integration_time : ℝ) : Option (List NFloat) :=
  fcorrect_deadtime_flat brentq raw_fluorescence slow_events fast_events
    integration_time deadtime_default_time_constant

/-
Shape-carrying model of numpy arrays, for the multi-dimensional behaviour
of fcorrect_deadtime (claim C1).  data is the row-major flat element list.
-/

/-- A numpy ndarray: a shape and the row-major flat data. -/
structure NDArray : Type where
  shape : List ℕ
  data : List NFloat

/-- ndarray.flatten(): a fresh one-dimensional array over the same data. -/
def NDArray.flatten (a : NDArray) : NDArray :=
  NDArray.mk [a.data.length] a.data

/-- Basic indexing a[i] along the first axis: a subarray for a
multi-dimensional array, a single-element view for a one-dimensional one;
IndexError (none) when i is out of range or the array is zero-dimensional. -/
def nd_index (a : NDArray) (i : ℕ) : Option NDArray :=
  match a.shape with
  | [] => none
  | d :: rest =>
      if i < d then some (NDArray.mk rest ((a.data.drop (i * rest.prod)).take rest.prod))
      else none

/-- Conversion of an array to a Python scalar, as scipy does with the brentq
bracket ends: succeeds only on a single-element array. -/
def nd_toScalar (a : NDArray) : Option NFloat :=
  match a.data with
  | [x] => some x
  | _ => none

/-- Elementwise division of an array by a float scalar. -/
noncomputable def nd_scalar_div (a : NDArray) (c : ℝ) : NDArray :=
  NDArray.mk a.shape (a.data.map (fun x => NFloat.div x (NFloat.fin c)))

/-- Elementwise division of two arrays.  Arrays of equal shape divide
elementwise; unequal shapes are a broadcast error (none).  General numpy
broadcasting between distinct compatible shapes is not modeled: no claim
exercises it, and the shapes that arise here are either equal or
incompatible (a (m,n) array against a flat (m*n) one). -/
noncomputable def nd_div (a b : NDArray) : Option NDArray :=
  if a.shape = b.shape then
    some (NDArray.mk a.shape (List.zipWith NFloat.div a.data b.data))
  else none

/-- ndarray.reshape(shape): a NEW array over the same data; fails if the
element counts differ.  numpy reshape never mutates its receiver — the
source discards this return value. -/
def nd_reshape (a : NDArray) (s : List ℕ) : Option NDArray :=
  if a.data.length = s.prod then some (NDArray.mk s a.data) else none

/-- np.nan_to_num over an array. -/
noncomputable def nd_nan_to_num (a : NDArray) : NDArray :=
  NDArray.mk a.shape (a.data.map NFloat.nan_to_num)

/-- fcorrect_deadtime on arbitrary-shape arrays, line by line from the
source: convert fast events to a countrate; loop i over
range(len(fast_countrate.flatten())) BUT index the un-flattened
fast_countrate[i], handing the (possibly non-scalar) element to brentq;
evaluate fitted_fast_countrate.reshape(original_shape) and DISCARD the
returned array, as the source does; then live time and the final division. -/
noncomputable def fcorrect_deadtime_nd
    (brentq : (ℝ → ℝ → ℝ → ℝ) → ℝ → ℝ → ℝ → ℝ → Option ℝ)
    (raw_fluorescence slow_events fast_events : NDArray)
    (integration_time fast_filter_time_constant : ℝ) : Option NDArray := do
  let fast_countrate := nd_scalar_div fast_events integration_time
  let original_shape := fast_countrate.shape
  let fitted_data ← traverseOption (fun i => do
      let sub_i ← nd_index fast_countrate i
      let v ← nd_toScalar sub_i
      let vr ← NFloat.toReal v
      brentq fdead_time_zero_function (vr - 50000) (vr + 100000) vr
        fast_filter_time_constant)
    (List.range fast_countrate.flatten.data.length)
  let fitted_fast_countrate := NDArray.mk [fitted_data.length] (fitted_data.map NFloat.fin)
  let _ ← nd_reshape fitted_fast_countrate original_shape
  let q ← nd_div slow_events fitted_fast_countrate
  let live_time := nd_nan_to_num (nd_scalar_div q integration_time)
  nd_div raw_fluorescence live_time

/-
Helper lemmas: maxima of real lists and the sorted-index divisor.
-/

theorem foldl_max_bounds (xs : List ℝ) : ∀ a : ℝ,
    a ≤ xs.foldl max a ∧ ∀ x ∈ xs, x ≤ xs.foldl max a := by
  induction xs with
  | nil => intro a; simp
  | cons b xs ih =>
      intro a
      obtain ⟨h1, h2⟩ := ih (max a b)
      refine ⟨le_trans (le_max_left a b) h1, ?_⟩
      intro x hx
      rcases List.mem_cons.mp hx with rfl | hx
      · exact le_trans (le_max_right a x) h1
      · exact h2 x hx

theorem foldl_max_attained (xs : List ℝ) : ∀ a : ℝ,
    xs.foldl max a = a ∨ xs.foldl max a ∈ xs := by
  induction xs with
  | nil => intro a; simp
  | cons b xs ih =>
      intro a
      rcases ih (max a b) with h | h
      · rcases max_choice a b with hm | hm
        · left; simp only [List.foldl_cons]; rw [h, hm]
        · right; simp only [List.foldl_cons]; rw [h, hm]; exact List.mem_cons_self b xs
      · right; exact List.mem_cons_of_mem b h

theorem listMax_spec {l : List ℝ} {m : ℝ} (h : listMax l = some m) :
    m ∈ l ∧ ∀ x ∈ l, x ≤ m := by
  cases l with
  | nil => simp [listMax] at h
  | cons a xs =>
      simp only [listMax, Option.some.injEq] at h
      subst h
      constructor
      · rcases foldl_max_attained xs a with h | h
        · rw [h]; exact List.mem_cons_self a xs
        · exact List.mem_cons_of_mem a h
      · intro x hx
        rcases List.mem_cons.mp hx with rfl | hx
        · exact (foldl_max_bounds xs x).1
        · exact (foldl_max_bounds xs a).2 x hx

theorem listMax_eq {l : List ℝ} {m : ℝ} (hm : m ∈ l) (hub : ∀ x ∈ l, x ≤ m) :
    listMax l = some m := by
  cases l with
  | nil => simp at hm
  | cons a xs =>
      simp only [listMax, Option.some.injEq]
      have hle : xs.foldl max a ≤ m := by
        rcases foldl_max_attained xs a with h | h
        · rw [h]; exact hub a (List.mem_cons_self a xs)
        · exact hub _ (List.mem_cons_of_mem a h)
      have hge : m ≤ xs.foldl max a := by
        rcases List.mem_cons.mp hm with rfl | hm
        · exact (foldl_max_bounds xs m).1
        · exact (foldl_max_bounds xs a).2 m hm
      exact le_antisymm hle hge

theorem listMax_perm {l l' : List ℝ} (h : l.Perm l') : listMax l = listMax l' := by
  cases hl : listMax l with
  | none =>
      cases l with
      | nil => rw [List.Perm.eq_nil h.symm]; rfl
      | cons a xs => simp [listMax] at hl
  | some m =>
      obtain ⟨hmem, hub⟩ := listMax_spec hl
      exact (listMax_eq (h.mem_iff.mp hmem) fun x hx => hub x (h.mem_iff.mpr hx)).symm

theorem secondLargest_eq_auto_divisor (t : List ℝ) (h2 : 2 ≤ t.length) :
    secondLargest t = some (auto_divisor t) := by
  classical
  set s := List.insertionSort (fun a b => a ≤ b) t with hs_def
  have hsort : List.Sorted (fun a b : ℝ => a ≤ b) s := List.sorted_insertionSort _ t
  have hperm : s.Perm t := List.perm_insertionSort _ t
  have hlen : s.length = t.length := hperm.length_eq
  have hrev : (List.Pairwise (fun a b : ℝ => b ≤ a)) s.reverse :=
    List.pairwise_reverse.mpr hsort
  have hrlen : s.reverse.length = t.length := by rw [List.length_reverse, hlen]
  obtain ⟨b, a, rest, hr⟩ : ∃ b a rest, s.reverse = b :: a :: rest := by
    rcases hcase : s.reverse with _ | ⟨b, _ | ⟨a, rest⟩⟩
    · rw [hcase] at hrlen; simp at hrlen; omega
    · rw [hcase] at hrlen; simp at hrlen; omega
    · exact ⟨b, a, rest, rfl⟩
  have hr_perm_t : s.reverse.Perm t := (List.reverse_perm s).trans hperm
  have hub_b : ∀ x ∈ s.reverse, x ≤ b := by
    intro x hx
    rw [hr] at hx hrev
    rcases List.mem_cons.mp hx with rfl | hx
    · exact le_refl x
    · exact (List.pairwise_cons.mp hrev).1 x hx
  have hmax : listMax t = some b :=
    listMax_eq (hr_perm_t.mem_iff.mp (by rw [hr]; exact List.mem_cons_self _ _))
      (fun x hx => hub_b x (hr_perm_t.mem_iff.mpr hx))
  have herase : (t.erase b).Perm (a :: rest) := by
    have h1 : (t.erase b).Perm (s.reverse.erase b) := List.Perm.erase b hr_perm_t.symm
    rw [hr, List.erase_cons_head] at h1
    exact h1
  have hsecond : listMax (a :: rest) = some a := by
    refine listMax_eq (List.mem_cons_self a rest) ?_
    intro x hx
    rcases List.mem_cons.mp hx with rfl | hx
    · exact le_refl x
    · have := (List.pairwise_cons.mp ((List.pairwise_cons.mp (hr ▸ hrev)).2)).1
      exact this x hx
  have hval : secondLargest t = some a := by
    unfold secondLargest
    rw [hmax]
    show listMax (t.erase b) = some a
    rw [listMax_perm herase, hsecond]
  have hidx : s.getD (t.length - 2) 0 = a := by
    have h1lt : 1 < s.length := by omega
    have hget : s.reverse[1]? = s[s.length - 1 - 1]? := List.getElem?_reverse h1lt
    rw [hr] at hget
    simp only [List.getElem?_cons_succ, List.getElem?_cons_zero] at hget
    have hsub : s.length - 1 - 1 = t.length - 2 := by omega
    rw [hsub] at hget
    rw [List.getD_eq_getElem?_getD, ← hget]
    rfl
  rw [hval]
  have hdiv : auto_divisor t = a := by
    show (if 1 < t.length
      then (List.insertionSort (fun a b => a ≤ b) t).getD (t.length - 2) 0
      else (List.insertionSort (fun a b => a ≤ b) t).getD (t.length - 1) 0) = a
    rw [if_pos (show 1 < t.length by omega)]
    exact hidx
  rw [hdiv]

/-
Helper lemmas: the dead-time model x * exp(-tc * x) is strictly increasing
below 1/tc, so the brentq bracket holds at most one root.
-/

theorem deadtime_model_strictMono {tc x y : ℝ} (htc : 0 < tc) (hxy : x < y)
    (hy : y ≤ 1 / tc) :
    x * Real.exp (-tc * x) < y * Real.exp (-tc * y) := by
  rcases le_or_lt y 0 with hy0 | hy0
  · rcases eq_or_lt_of_le hy0 with rfl | hyneg
    · have hx0 : x < 0 := hxy
      calc x * Real.exp (-tc * x) < 0 :=
            mul_neg_of_neg_of_pos hx0 (Real.exp_pos _)
        _ = 0 * Real.exp (-tc * 0) := by ring
    · have hx0 : x < 0 := lt_trans hxy hyneg
      have hexp : Real.exp (-tc * y) < Real.exp (-tc * x) := by
        rw [Real.exp_lt_exp]; nlinarith
      have hkey : (-y) * Real.exp (-tc * y) < (-x) * Real.exp (-tc * x) := by
        apply mul_lt_mul (by linarith) (le_of_lt hexp) (Real.exp_pos _) (by linarith)
      nlinarith
  · rcases le_or_lt x 0 with hx0 | hx0
    · have hR : 0 < y * Real.exp (-tc * y) := mul_pos hy0 (Real.exp_pos _)
      have hL : x * Real.exp (-tc * x) ≤ 0 := mul_nonpos_of_nonpos_of_nonneg hx0 (Real.exp_pos _).le
      linarith
    · have hu : 0 < tc * (y - x) := by nlinarith
      have hexp : 1 - tc * (y - x) < Real.exp (-(tc * (y - x))) := by
        have hne : -(tc * (y - x)) ≠ 0 := ne_of_lt (by linarith)
        have := Real.add_one_lt_exp hne
        linarith
      have htcy : tc * y ≤ 1 := by
        rw [le_div_iff₀ htc] at hy
        nlinarith
      have hstep : x < y * Real.exp (-(tc * (y - x))) := by
        have h1 : y * (1 - tc * (y - x)) < y * Real.exp (-(tc * (y - x))) :=
          mul_lt_mul_of_pos_left hexp hy0
        nlinarith
      have := mul_lt_mul_of_pos_right hstep (Real.exp_pos (-tc * x))
      calc x * Real.exp (-tc * x) < y * Real.exp (-(tc * (y - x))) * Real.exp (-tc * x) := this
        _ = y * Real.exp (-tc * y) := by
            rw [mul_assoc, ← Real.exp_add]
            ring_nf

theorem deadtime_model_inj {tc x y : ℝ} (htc : 0 < tc) (hx : x ≤ 1 / tc)
    (hy : y ≤ 1 / tc) (h : x * Real.exp (-tc * x) = y * Real.exp (-tc * y)) : x = y := by
  rcases lt_trichotomy x y with hlt | heq | hgt
  · exact absurd h (ne_of_lt (deadtime_model_strictMono htc hlt hy))
  · exact heq
  · exact absurd h.symm (ne_of_lt (deadtime_model_strictMono htc hgt hx))

/-
Helper lemmas: NFloat arithmetic facts used by the claim proofs.
-/

theorem nf_div_fin_fin {x y : ℝ} (h : y ≠ 0) :
    NFloat.div (NFloat.fin x) (NFloat.fin y) = NFloat.fin (x / y) := by
  simp [NFloat.div, h]

theorem nf_div_one (x : NFloat) : NFloat.div x (NFloat.fin 1) = x := by
  cases x with
  | nan => rfl
  | inf =>
      show (if (1:ℝ) < 0 then NFloat.ninf else NFloat.inf) = NFloat.inf
      rw [if_neg (by norm_num)]
  | ninf =>
      show (if (1:ℝ) < 0 then NFloat.inf else NFloat.ninf) = NFloat.ninf
      rw [if_neg (by norm_num)]
  | fin r =>
      rw [nf_div_fin_fin (by norm_num)]
      norm_num

theorem nf_div_self {v : ℝ} (h : 0 < v) :
    NFloat.div (NFloat.fin v) (NFloat.fin v) = NFloat.fin 1 := by
  rw [nf_div_fin_fin (ne_of_gt h)]
  rw [div_self (ne_of_gt h)]

theorem nf_div_zero_zero : NFloat.div (NFloat.fin 0) (NFloat.fin 0) = NFloat.nan := by
  simp [NFloat.div]

theorem nf_div_pos_zero {p : ℝ} (h : 0 < p) :
    NFloat.div (NFloat.fin p) (NFloat.fin 0) = NFloat.inf := by
  simp [NFloat.div, ne_of_gt h, not_lt.mpr h.le]

theorem nf_div_inf_fin_pos {c : ℝ} (h : 0 < c) :
    NFloat.div NFloat.inf (NFloat.fin c) = NFloat.inf := by
  show (if c < 0 then NFloat.ninf else NFloat.inf) = NFloat.inf
  rw [if_neg (not_lt.mpr h.le)]

theorem nf_div_nan_left (y : NFloat) : NFloat.div NFloat.nan y = NFloat.nan := by
  cases y <;> rfl

theorem nf_sub_fin_fin (x y : ℝ) :
    NFloat.sub (NFloat.fin x) (NFloat.fin y) = NFloat.fin (x - y) := rfl

theorem nf_min_fin_fin (x y : ℝ) :
    NFloat.min (NFloat.fin x) (NFloat.fin y) = NFloat.fin (Min.min x y) := rfl

theorem nf_log_one : NFloat.log (NFloat.fin 1) = NFloat.fin 0 := by
  show (if (0:ℝ) < 1 then NFloat.fin (Real.log 1) else
    if (1:ℝ) = 0 then NFloat.ninf else NFloat.nan) = NFloat.fin 0
  rw [if_pos (by norm_num), Real.log_one]

theorem nf_neg_zero : NFloat.neg (NFloat.fin 0) = NFloat.fin 0 := by
  show NFloat.fin (-0) = NFloat.fin 0
  norm_num

theorem nf_is_sig_fin_iff {r : ℝ} : nf_is_sig (NFloat.fin r) ↔ 1e-5 < r := Iff.rfl

/-- Minimum of a list of finite floats: finite, attained, and a lower bound. -/
theorem foldl_min_fin (xs : List NFloat) : ∀ a : ℝ,
    (∀ x ∈ xs, ∃ r : ℝ, x = NFloat.fin r) →
    ∃ m : ℝ, xs.foldl NFloat.min (NFloat.fin a) = NFloat.fin m ∧
      (m = a ∨ NFloat.fin m ∈ xs) ∧ m ≤ a ∧ ∀ r : ℝ, NFloat.fin r ∈ xs → m ≤ r := by
  induction xs with
  | nil =>
      intro a _
      exact ⟨a, rfl, Or.inl rfl, le_refl a, fun r hr => absurd hr (List.not_mem_nil _)⟩
  | cons x xs ih =>
      intro a hfin
      obtain ⟨b, rfl⟩ := hfin x (List.mem_cons_self x xs)
      obtain ⟨m, hm, hat, hle, hlb⟩ :=
        ih (Min.min a b) (fun y hy => hfin y (List.mem_cons_of_mem _ hy))
      refine ⟨m, ?_, ?_, ?_, ?_⟩
      · simpa [nf_min_fin_fin] using hm
      · rcases hat with hat | hat
        · rcases min_choice a b with hc | hc
          · exact Or.inl (by rw [hat, hc])
          · exact Or.inr (by rw [hat, hc]; exact List.mem_cons_self _ _)
        · exact Or.inr (List.mem_cons_of_mem _ hat)
      · exact le_trans hle (min_le_left a b)
      · intro r hr
        rcases List.mem_cons.mp hr with heq | hr
        · injection heq with h
          subst h
          exact le_trans hle (min_le_right _ _)
        · exact hlb r hr

theorem listMinNF_fin {l : List NFloat} (hne : l ≠ [])
    (hfin : ∀ x ∈ l, ∃ r : ℝ, x = NFloat.fin r) :
    ∃ m : ℝ, listMinNF l = some (NFloat.fin m) ∧ NFloat.fin m ∈ l ∧
      ∀ r : ℝ, NFloat.fin r ∈ l → m ≤ r := by
  cases l with
  | nil => exact absurd rfl hne
  | cons x xs =>
      obtain ⟨a, rfl⟩ := hfin x (List.mem_cons_self x xs)
      obtain ⟨m, hm, hat, hle, hlb⟩ :=
        foldl_min_fin xs a (fun y hy => hfin y (List.mem_cons_of_mem _ hy))
      refine ⟨m, ?_, ?_, ?_⟩
      · show some (xs.foldl NFloat.min (NFloat.fin a)) = some (NFloat.fin m)
        rw [hm]
      · rcases hat with rfl | hat
        · exact List.mem_cons_self _ _
        · exact List.mem_cons_of_mem _ hat
      · intro r hr
        rcases List.mem_cons.mp hr with heq | hr
        · injection heq with h
          subst h
          exact hle
        · exact hlb r hr

/-- Subtracting the minimum of a nonempty all-finite list yields a list
whose minimum is exactly zero. -/
theorem listMinNF_baseline {l : List NFloat} (hne : l ≠ [])
    (hfin : ∀ x ∈ l, ∃ r : ℝ, x = NFloat.fin r) :
    ∃ m : NFloat, listMinNF l = some m ∧
      listMinNF (l.map (fun x => NFloat.sub x m)) = some (NFloat.fin 0) := by
  obtain ⟨m, hmin, hmem, hlb⟩ := listMinNF_fin hne hfin
  refine ⟨NFloat.fin m, hmin, ?_⟩
  have hne' : l.map (fun x => NFloat.sub x (NFloat.fin m)) ≠ [] := by
    simpa using hne
  have hfin' : ∀ y ∈ l.map (fun x => NFloat.sub x (NFloat.fin m)), ∃ r : ℝ, y = NFloat.fin r := by
    intro y hy
    obtain ⟨x, hx, rfl⟩ := List.mem_map.mp hy
    obtain ⟨r, rfl⟩ := hfin x hx
    exact ⟨r - m, rfl⟩
  obtain ⟨m', hmin', hmem', hlb'⟩ := listMinNF_fin hne' hfin'
  have hm'0 : m' = 0 := by
    have hle : m' ≤ 0 := by
      apply hlb'
      have : NFloat.sub (NFloat.fin m) (NFloat.fin m) = NFloat.fin 0 := by
        rw [nf_sub_fin_fin]; norm_num
      exact this ▸ List.mem_map_of_mem _ hmem
    have hge : 0 ≤ m' := by
      obtain ⟨x, hx, hxm⟩ := List.mem_map.mp hmem'
      obtain ⟨r, rfl⟩ := hfin x hx
      rw [nf_sub_fin_fin] at hxm
      have h1 : r - m = m' := by injection hxm
      have h2 := hlb r hx
      linarith
    exact le_antisymm hle hge
  rw [hm'0] at hmin'
  exact hmin'

theorem nf_nan_to_num_fin (x : ℝ) :
    NFloat.nan_to_num (NFloat.fin x) = NFloat.fin x := rfl

theorem getD_map_of_lt (f : NFloat → NFloat) (l : List NFloat) (i : ℕ)
    (h : i < l.length) (d : NFloat) : (l.map f).getD i d = f (l.getD i d) := by
  rw [List.getD_eq_getElem?_getD, List.getD_eq_getElem?_getD, List.getElem?_map,
    List.getElem?_eq_getElem h]
  rfl

theorem getD_zipWith_of_lt (f : NFloat → NFloat → NFloat) (l₁ l₂ : List NFloat) (i : ℕ)
    (h1 : i < l₁.length) (h2 : i < l₂.length) (d : NFloat) :
    (List.zipWith f l₁ l₂).getD i d = f (l₁.getD i d) (l₂.getD i d) := by
  rw [List.getD_eq_getElem?_getD, List.getD_eq_getElem?_getD, List.getD_eq_getElem?_getD,
    List.getElem?_zipWith, List.getElem?_eq_getElem h1, List.getElem?_eq_getElem h2]
  rfl

theorem zipWith_div_ones (l₁ l₂ : List NFloat) (hlen : l₁.length = l₂.length)
    (h1 : ∀ y ∈ l₂, y = NFloat.fin 1) : List.zipWith NFloat.div l₁ l₂ = l₁ := by
  induction l₁ generalizing l₂ with
  | nil => simp
  | cons x xs ih =>
      cases l₂ with
      | nil => simp at hlen
      | cons y ys =>
          have hy : y = NFloat.fin 1 := h1 y (List.mem_cons_self _ _)
          simp only [List.zipWith_cons_cons]
          rw [hy, nf_div_one,
            ih ys (by simpa using hlen) (fun z hz => h1 z (List.mem_cons_of_mem _ hz))]

theorem live_time_ones (slow : List NFloat)
    (hpos : ∀ x ∈ slow, ∃ r : ℝ, 0 < r ∧ x = NFloat.fin r) :
    (List.zipWith NFloat.div slow slow).map NFloat.nan_to_num =
      List.replicate slow.length (NFloat.fin 1) := by
  induction slow with
  | nil => rfl
  | cons x xs ih =>
      obtain ⟨r, hr, rfl⟩ := hpos _ (List.mem_cons_self x xs)
      simp only [List.zipWith_cons_cons, List.map_cons, List.length_cons, List.replicate_succ]
      rw [nf_div_self hr, nf_nan_to_num_fin,
        ih (fun z hz => hpos z (List.mem_cons_of_mem _ hz))]

theorem corr_log_ones (radio : List NFloat) (h : ∀ x ∈ radio, x = NFloat.fin 1) :
    fcorrect_incident_intensity_colocated
        (radio.map (fun x => NFloat.neg (NFloat.log x))) =
      List.replicate radio.length (NFloat.fin 1) := by
  induction radio with
  | nil => rfl
  | cons x xs ih =>
      have hx : x = NFloat.fin 1 := h x (List.mem_cons_self _ _)
      simp only [List.map_cons, fcorrect_incident_intensity_colocated, List.length_cons,
        List.replicate_succ]
      rw [hx, nf_log_one, nf_neg_zero,
        if_neg (by simp only [nf_is_sig_fin_iff]; norm_num)]
      have htail := ih (fun z hz => h z (List.mem_cons_of_mem _ hz))
      simp only [fcorrect_incident_intensity_colocated] at htail
      rw [htail]

/-
The claims.
-/

/-- C8: for every extinction-length array, the self-absorption correction
computed inline inside fluorescence_fit_fast is element-wise equal to the
shared helper incident_intensity_correction applied to the same array: the
duplicated logic and the named function are behaviorally identical. -/
theorem C8_inline_correction_eq_helper (ext_lengths : List NFloat) :
    fit_fast_inline_intensity_correction ext_lengths =
      fcorrect_incident_intensity_colocated ext_lengths := rfl

/-- C9: the default dead-time filter time constant of
fluorescence_fit_fast is 3.13e-7, which differs from the 3.15e-7 default of
correct_deadtime itself, so a default call of fluorescence_fit_fast runs
the dead-time correction with time constant 3.13e-7, not 3.15e-7. -/
theorem C9_default_time_constants_differ :
    fit_fast_default_time_const = 3.13e-7 ∧
    deadtime_default_time_constant = 3.15e-7 ∧
    fit_fast_default_time_const ≠ deadtime_default_time_constant ∧
    (∀ brentq raw_fluorescence slow_events fast_events radiography reference,
      fcompute_fluorescence_fit_fast_defaults brentq raw_fluorescence slow_events
          fast_events radiography reference =
        (fcorrect_deadtime_flat brentq raw_fluorescence slow_events fast_events 1
            fit_fast_default_time_const).map
          (fun f => fit_fast_post f radiography reference 0 false)) ∧
    (∀ brentq raw_fluorescence slow_events fast_events integration_time,
      fcorrect_deadtime_flat_defaults brentq raw_fluorescence slow_events fast_events
          integration_time =
        fcorrect_deadtime_flat brentq raw_fluorescence slow_events fast_events
          integration_time deadtime_default_time_constant) := by
  refine ⟨rfl, rfl, ?_, fun _ _ _ _ _ _ => rfl, fun _ _ _ _ _ => rfl⟩
  unfold fit_fast_default_time_const deadtime_default_time_constant
  norm_num

/-- C5: radiography_density with abs_coeff = 0 returns the None sentinel
(no exception, and no NaN is representable in the result), and with any
nonzero abs_coeff it returns extinction_length(..., abs_value=True) divided
elementwise by abs_coeff. -/
theorem C5_density_sentinel_and_quotient (PIN reference : List ℝ)
    (clear_ratio PIN_dark ref_dark abs_coeff : ℝ) :
    fcompute_radiography_density PIN reference clear_ratio PIN_dark ref_dark 0 = none ∧
    (abs_coeff ≠ 0 →
      fcompute_radiography_density PIN reference clear_ratio PIN_dark ref_dark abs_coeff =
        some ((fcompute_extinction_lengths PIN reference clear_ratio PIN_dark ref_dark
            true).map (fun x => x / abs_coeff))) := by
  constructor
  · unfold fcompute_radiography_density
    rw [if_neg (by norm_num)]
  · intro h
    unfold fcompute_radiography_density
    rw [if_pos h]

/-- Witness for C5 at a concrete input with abs_coeff = 1. -/
theorem C5_witness :
    (1:ℝ) ≠ 0 ∧
    fcompute_radiography_density [2] [1] 0 0 0 1 =
      some ((fcompute_extinction_lengths [2] [1] 0 0 0 true).map (fun x => x / 1)) :=
  ⟨by norm_num, (C5_density_sentinel_and_quotient [2] [1] 0 0 0 1).2 (by norm_num)⟩

/-- C4: incident_intensity_correction keeps the array shape; an element
with value at most 1e-5 maps to exactly 1, an element above 1e-5 maps to
(1 - exp(-L)) / L, and every output element that comes from a finite input
is a finite value in the interval (0, 1]. -/
theorem C4_incident_intensity_bounds (L : List NFloat) :
    (fcorrect_incident_intensity_colocated L).length = L.length ∧
    (∀ i : ℕ, ∀ r : ℝ, i < L.length → L.getD i NFloat.nan = NFloat.fin r →
      ((r ≤ 1e-5 →
          (fcorrect_incident_intensity_colocated L).getD i NFloat.nan = NFloat.fin 1) ∧
        (1e-5 < r →
          (fcorrect_incident_intensity_colocated L).getD i NFloat.nan =
            NFloat.fin ((1 - Real.exp (-r)) / r)) ∧
        (∃ v : ℝ, (fcorrect_incident_intensity_colocated L).getD i NFloat.nan =
            NFloat.fin v ∧ 0 < v ∧ v ≤ 1))) := by
  constructor
  · simp [fcorrect_incident_intensity_colocated]
  · intro i r hi hr
    have hget : (fcorrect_incident_intensity_colocated L).getD i NFloat.nan =
        (if nf_is_sig (L.getD i NFloat.nan) then
          NFloat.div (NFloat.sub (NFloat.fin 1) (NFloat.exp (NFloat.neg (L.getD i NFloat.nan))))
            (L.getD i NFloat.nan)
        else NFloat.fin 1) :=
      getD_map_of_lt _ L i hi NFloat.nan
    rw [hr] at hget
    have hbig : 1e-5 < r →
        (fcorrect_incident_intensity_colocated L).getD i NFloat.nan =
          NFloat.fin ((1 - Real.exp (-r)) / r) := by
      intro hlt
      rw [hget, if_pos (nf_is_sig_fin_iff.mpr hlt)]
      show NFloat.div (NFloat.fin (1 - Real.exp (-r))) (NFloat.fin r) = _
      rw [nf_div_fin_fin (by positivity : r ≠ 0)]
    refine ⟨?_, hbig, ?_⟩
    · intro hle
      rw [hget, if_neg (by rw [nf_is_sig_fin_iff]; exact not_lt.mpr hle)]
    · rcases le_or_lt r 1e-5 with hle | hlt
      · refine ⟨1, ?_, by norm_num, le_refl 1⟩
        rw [hget, if_neg (by rw [nf_is_sig_fin_iff]; exact not_lt.mpr hle)]
      · have hrpos : 0 < r := lt_trans (by norm_num) hlt
        refine ⟨(1 - Real.exp (-r)) / r, hbig hlt, ?_, ?_⟩
        · apply div_pos _ hrpos
          have : Real.exp (-r) < 1 := Real.exp_lt_one_iff.mpr (by linarith)
          linarith
        · rw [div_le_one hrpos]
          have := Real.add_one_le_exp (-r)
          linarith

/-- Witness for C4 at L = [0, 1]: index 0 is in the threshold branch and
maps to exactly 1. -/
theorem C4_witness :
    (fcorrect_incident_intensity_colocated [NFloat.fin 0, NFloat.fin 1]).getD 0
      NFloat.nan = NFloat.fin 1 :=
  ((C4_incident_intensity_bounds [NFloat.fin 0, NFloat.fin 1]).2 0 0 (by norm_num)
    rfl).1 (by norm_num)

/-- C3: transmission with clear_ratio = 0 auto-normalizes: with at least two
elements it divides every element of the dark-corrected ratio by the
second-largest value of that ratio (in the multiset sense: the maximum of
the ratio after removing one occurrence of its maximum), and with exactly
one element it divides that element by itself. -/
theorem C3_transmission_autonorm (PIN reference : List ℝ) (PIN_dark ref_dark : ℝ) :
    (∀ d : ℝ, 2 ≤ (dark_ratio PIN reference PIN_dark ref_dark).length →
      secondLargest (dark_ratio PIN reference PIN_dark ref_dark) = some d →
      fcompute_transmission PIN reference 0 PIN_dark ref_dark =
        (dark_ratio PIN reference PIN_dark ref_dark).map (fun x => x / d)) ∧
    (∀ x : ℝ, dark_ratio PIN reference PIN_dark ref_dark = [x] →
      fcompute_transmission PIN reference 0 PIN_dark ref_dark = [x / x]) := by
  have hbase : fcompute_transmission PIN reference 0 PIN_dark ref_dark =
      (dark_ratio PIN reference PIN_dark ref_dark).map
        (fun x => x / auto_divisor (dark_ratio PIN reference PIN_dark ref_dark)) := by
    unfold fcompute_transmission
    rw [if_neg (by norm_num)]
  constructor
  · intro d h2 hd
    have := secondLargest_eq_auto_divisor _ h2
    rw [hd] at this
    have hda : d = auto_divisor (dark_ratio PIN reference PIN_dark ref_dark) :=
      Option.some_injective _ this
    rw [hbase, ← hda]
  · intro x hx
    rw [hbase, hx]
    have hdiv : auto_divisor [x] = x := by
      show (if 1 < ([x] : List ℝ).length
        then (List.insertionSort (fun a b => a ≤ b) [x]).getD (([x] : List ℝ).length - 2) 0
        else (List.insertionSort (fun a b => a ≤ b) [x]).getD (([x] : List ℝ).length - 1) 0) = x
      rw [if_neg (by simp)]
      rfl
    rw [hdiv]
    rfl

/-- Witness for C3 at PIN = [2,3], reference = [1,1], zero darks: the ratio
is [2,3], its second-largest value is 2, and the auto-normalized
transmission is [2/2, 3/2]. -/
theorem C3_witness :
    fcompute_transmission [2, 3] [1, 1] 0 0 0 =
      (dark_ratio [2, 3] [1, 1] 0 0).map (fun x => x / 2) := by
  have hratio : dark_ratio [2, 3] [1, 1] 0 0 = [2, 3] := by
    unfold dark_ratio
    norm_num
  apply (C3_transmission_autonorm [2, 3] [1, 1] 0 0).1 2
  · rw [hratio]; norm_num
  · rw [hratio]
    have hmax : listMax ([2, 3] : List ℝ) = some 3 :=
      listMax_eq (by simp) (by intro y hy; simp at hy; rcases hy with rfl | rfl <;> norm_num)
    unfold secondLargest
    rw [hmax]
    show listMax (([2, 3] : List ℝ).erase 3) = some 2
    have hne23 : ((2:ℝ) == 3) = false := beq_eq_false_iff_ne.mpr (by norm_num)
    have herase : ([2, 3] : List ℝ).erase 3 = [2] := by
      rw [List.erase_cons_tail (by simp [hne23]), List.erase_cons_head]
    rw [herase]
    exact listMax_eq (by simp) (by intro y hy; simp at hy; exact le_of_eq hy)

/-- C2 (amended): the dead-time round-trip holds whenever the synthesized
actual_rate lies inside the hardcoded bracket and the bracket's upper end
observed + 1e5 stays at or below 1/time_constant (the region where the
dead-time model is strictly increasing): every root of the residual in the
bracket around the observed countrate fast_events / integration_time equals
the original actual_rate exactly.  Outside those bounds the unamended claim
fails: see C2_counterexample. -/
theorem C2_deadtime_roundtrip_bracketed
    (actual_rate time_constant integration_time fast_events r : ℝ)
    (hpos : 0 < actual_rate) (htc : 0 < time_constant) (hit : 0 < integration_time)
    (hfe : fast_events = actual_rate * Real.exp (-time_constant * actual_rate) *
      integration_time)
    (hup : actual_rate ≤ fast_events / integration_time + 100000)
    (hbr : fast_events / integration_time + 100000 ≤ 1 / time_constant)
    (hroot : deadtime_bracket_root (fast_events / integration_time) time_constant r) :
    r = actual_rate := by
  obtain ⟨h1, h2, h3⟩ := hroot
  have hobs : fast_events / integration_time =
      actual_rate * Real.exp (-time_constant * actual_rate) := by
    rw [hfe]; field_simp
  unfold fdead_time_zero_function at h3
  rw [hobs] at h1 h2 hup hbr h3
  have hr_eq : r * Real.exp (-time_constant * r) =
      actual_rate * Real.exp (-time_constant * actual_rate) := by linarith
  exact deadtime_model_inj htc (by linarith) (by linarith) hr_eq

/-- C2 counterexample: at actual_rate 2e6 (time constant 3.15e-7) the
dead-time residual has no root at all inside the hardcoded bracket
[observed - 5e4, observed + 1e5] around the synthesized observed rate, so
the bracketed solve cannot return the actual rate there (brentq finds no
sign change and raises). -/
theorem C2_counterexample :
    ¬ ∃ r : ℝ, deadtime_bracket_root
      ((2000000 : ℝ) * Real.exp (-(3.15e-7) * 2000000)) (3.15e-7) r := by
  rintro ⟨r, h1, h2, h3⟩
  unfold fdead_time_zero_function at h3
  have hexp : Real.exp (-(3.15e-7) * 2000000) ≤ 1 / 1.63 := by
    have harg : (-(3.15e-7) : ℝ) * 2000000 = -(0.63) := by norm_num
    rw [harg, Real.exp_neg, inv_eq_one_div]
    apply one_div_le_one_div_of_le (by norm_num)
    have := Real.add_one_le_exp (0.63 : ℝ)
    linarith
  have hobs_ub : (2000000 : ℝ) * Real.exp (-(3.15e-7) * 2000000) ≤ 2000000 / 1.63 := by
    nlinarith [Real.exp_pos (-(3.15e-7) * 2000000)]
  have hnum : (2000000 : ℝ) / 1.63 + 100000 < 2000000 := by norm_num
  have h2e6 : (2000000 : ℝ) ≤ 1 / (3.15e-7) := by norm_num
  have hrlt : r < 2000000 := by linarith
  have hmono : r * Real.exp (-(3.15e-7 : ℝ) * r) <
      2000000 * Real.exp (-(3.15e-7 : ℝ) * 2000000) :=
    deadtime_model_strictMono (by norm_num) hrlt h2e6
  linarith

/-- Witness for C2's amended theorem at actual_rate 100, time constant
3.15e-7, integration time 2: the synthesized data satisfy every hypothesis
and the bracketed root 100 is recovered. -/
theorem C2_witness :
    deadtime_bracket_root
      ((100 : ℝ) * Real.exp (-(3.15e-7) * 100) * 2 / 2) (3.15e-7) 100 ∧
    (100 : ℝ) = 100 := by
  have hE1 : Real.exp (-(3.15e-7) * 100) ≤ 1 := by
    rw [Real.exp_le_one_iff]; norm_num
  have hE0 : (0:ℝ) < Real.exp (-(3.15e-7) * 100) := Real.exp_pos _
  have hobs : (100 : ℝ) * Real.exp (-(3.15e-7) * 100) * 2 / 2 =
      100 * Real.exp (-(3.15e-7) * 100) := by ring
  have hroot : deadtime_bracket_root
      ((100 : ℝ) * Real.exp (-(3.15e-7) * 100) * 2 / 2) (3.15e-7) 100 := by
    rw [hobs]
    refine ⟨by nlinarith, by nlinarith, ?_⟩
    unfold fdead_time_zero_function
    ring
  have h1tc : (100100 : ℝ) ≤ 1 / (3.15e-7) := by norm_num
  refine ⟨hroot, ?_⟩
  exact C2_deadtime_roundtrip_bracketed 100 (3.15e-7) 2
    (100 * Real.exp (-(3.15e-7) * 100) * 2) 100
    (by norm_num) (by norm_num) (by norm_num) rfl
    (by nlinarith) (by nlinarith) hroot

/-- C6: on every input on which they return normally (here: the computed
result is a nonempty array of finite floats), both fluorescence and
fluorescence_fit_fast with baseline true subtract the global minimum of the
assembled result from every element, so the returned array's minimum is
exactly 0. -/
theorem C6_baseline_min_zero :
    (∀ raw_fluorescence slow_events fast_events radiography reference : List NFloat,
      ∀ abs_coeff : ℝ, ∀ g : List NFloat,
      fcompute_fluorescence raw_fluorescence slow_events fast_events radiography
        reference abs_coeff false = g →
      g ≠ [] → (∀ x ∈ g, ∃ r : ℝ, x = NFloat.fin r) →
      listMinNF (fcompute_fluorescence raw_fluorescence slow_events fast_events
        radiography reference abs_coeff true) = some (NFloat.fin 0)) ∧
    (∀ brentq, ∀ raw_fluorescence slow_events fast_events radiography reference :
        List NFloat, ∀ integration_time abs_coeff time_const : ℝ, ∀ g : List NFloat,
      fcompute_fluorescence_fit_fast brentq raw_fluorescence slow_events fast_events
        radiography reference integration_time abs_coeff false time_const = some g →
      g ≠ [] → (∀ x ∈ g, ∃ r : ℝ, x = NFloat.fin r) →
      ∃ g', fcompute_fluorescence_fit_fast brentq raw_fluorescence slow_events
          fast_events radiography reference integration_time abs_coeff true
          time_const = some g' ∧ listMinNF g' = some (NFloat.fin 0)) := by
  constructor
  · intro raw slow fast radio ref ac g hg hne hfin
    have hkey : fcompute_fluorescence raw slow fast radio ref ac true =
        (match listMinNF (fcompute_fluorescence raw slow fast radio ref ac false) with
          | some m => (fcompute_fluorescence raw slow fast radio ref ac false).map
              (fun x => NFloat.sub x m)
          | none => fcompute_fluorescence raw slow fast radio ref ac false) := rfl
    rw [hg] at hkey
    obtain ⟨m, hmin, hzero⟩ := listMinNF_baseline hne hfin
    rw [hkey, hmin]
    exact hzero
  · intro brentq raw slow fast radio ref it ac tc g hg hne hfin
    unfold fcompute_fluorescence_fit_fast at hg ⊢
    cases hdt : fcorrect_deadtime_flat brentq raw slow fast it tc with
    | none => rw [hdt] at hg; simp at hg
    | some dt =>
        rw [hdt] at hg
        simp only [Option.map_some', Option.some.injEq] at hg
        refine ⟨fit_fast_post dt radio ref ac true, by simp, ?_⟩
        have hkey : fit_fast_post dt radio ref ac true =
            (match listMinNF (fit_fast_post dt radio ref ac false) with
              | some m => (fit_fast_post dt radio ref ac false).map
                  (fun x => NFloat.sub x m)
              | none => fit_fast_post dt radio ref ac false) := rfl
        rw [hg] at hkey
        obtain ⟨m, hmin, hzero⟩ := listMinNF_baseline hne hfin
        rw [hkey, hmin]
        exact hzero

/-- Witness for C6 on single-element all-ones arrays: the baseline-true
fluorescence result has minimum exactly 0. -/
theorem C6_witness :
    listMinNF (fcompute_fluorescence [NFloat.fin 1] [NFloat.fin 1] [NFloat.fin 1]
      [NFloat.fin 1] [NFloat.fin 1] 0 true) = some (NFloat.fin 0) := by
  have heval : fcompute_fluorescence [NFloat.fin 1] [NFloat.fin 1] [NFloat.fin 1]
      [NFloat.fin 1] [NFloat.fin 1] 0 false = [NFloat.fin 1] := by
    have hunfold : fcompute_fluorescence [NFloat.fin 1] [NFloat.fin 1] [NFloat.fin 1]
        [NFloat.fin 1] [NFloat.fin 1] 0 false =
        List.zipWith NFloat.div
          (List.zipWith NFloat.div
            (List.zipWith NFloat.div [NFloat.fin 1]
              ((List.zipWith NFloat.div [NFloat.fin 1] [NFloat.fin 1]).map
                NFloat.nan_to_num))
            [NFloat.fin 1])
          (fcorrect_incident_intensity_colocated
            (if (0:ℝ) ≠ 0 then [NFloat.fin 1].map (fun x => NFloat.mul x (NFloat.fin 0))
              else [NFloat.fin 1].map (fun x => NFloat.neg (NFloat.log x)))) := rfl
    have e1 : List.zipWith NFloat.div [NFloat.fin 1] [NFloat.fin 1] = [NFloat.fin 1] := by
      rw [show List.zipWith NFloat.div [NFloat.fin 1] [NFloat.fin 1] =
        [NFloat.div (NFloat.fin 1) (NFloat.fin 1)] from rfl, nf_div_self one_pos]
    have emap : List.map NFloat.nan_to_num [NFloat.fin 1] = [NFloat.fin 1] := rfl
    have e3 : fcorrect_incident_intensity_colocated
        ([NFloat.fin 1].map (fun x => NFloat.neg (NFloat.log x))) = [NFloat.fin 1] := by
      have h := corr_log_ones [NFloat.fin 1]
        (by intro x hx; rw [List.mem_singleton] at hx; exact hx)
      simpa using h
    rw [hunfold, if_neg (show ¬((0:ℝ) ≠ 0) by norm_num), e1, emap, e1, e1, e3, e1]
  exact C6_baseline_min_zero.1 [NFloat.fin 1] [NFloat.fin 1] [NFloat.fin 1]
    [NFloat.fin 1] [NFloat.fin 1] 0 [NFloat.fin 1] heval (by simp)
    (by intro x hx; rw [List.mem_singleton] at hx; exact ⟨1, hx⟩)

/-- C7: when fast_events equals slow_events elementwise with positive finite
values, abs_coeff is 0 and radiography is all ones, the non-root-finding
fluorescence reduces to exactly raw_fluorescence / reference elementwise:
the live-time factor is 1 and the zero extinction length makes the
incident-intensity correction 1. -/
theorem C7_fluorescence_reduces_to_ratio
    (raw_fluorescence slow_events fast_events radiography reference : List NFloat)
    (hsf : fast_events = slow_events)
    (hls : slow_events.length = raw_fluorescence.length)
    (hlref : reference.length = raw_fluorescence.length)
    (hlrad : radiography.length = raw_fluorescence.length)
    (hpos : ∀ x ∈ slow_events, ∃ r : ℝ, 0 < r ∧ x = NFloat.fin r)
    (hradio : ∀ x ∈ radiography, x = NFloat.fin 1) :
    fcompute_fluorescence raw_fluorescence slow_events fast_events radiography
      reference 0 false = List.zipWith NFloat.div raw_fluorescence reference := by
  rw [hsf]
  have hunfold : fcompute_fluorescence raw_fluorescence slow_events slow_events
      radiography reference 0 false =
      List.zipWith NFloat.div
        (List.zipWith NFloat.div
          (List.zipWith NFloat.div raw_fluorescence
            ((List.zipWith NFloat.div slow_events slow_events).map NFloat.nan_to_num))
          reference)
        (fcorrect_incident_intensity_colocated
          (if (0:ℝ) ≠ 0 then radiography.map (fun x => NFloat.mul x (NFloat.fin 0))
            else radiography.map (fun x => NFloat.neg (NFloat.log x)))) := rfl
  rw [hunfold, if_neg (show ¬((0:ℝ) ≠ 0) by norm_num)]
  rw [live_time_ones slow_events hpos]
  rw [zipWith_div_ones raw_fluorescence _ (by simp [hls])
    (fun y hy => List.eq_of_mem_replicate hy)]
  rw [corr_log_ones radiography hradio]
  apply zipWith_div_ones
  · simp [List.length_zipWith, hlref, hlrad]
  · exact fun y hy => List.eq_of_mem_replicate hy

/-- Witness for C7 at concrete single-element inputs. -/
theorem C7_witness :
    fcompute_fluorescence [NFloat.fin 2] [NFloat.fin 3] [NFloat.fin 3]
      [NFloat.fin 1] [NFloat.fin 5] 0 false =
      List.zipWith NFloat.div [NFloat.fin 2] [NFloat.fin 5] :=
  C7_fluorescence_reduces_to_ratio [NFloat.fin 2] [NFloat.fin 3] [NFloat.fin 3]
    [NFloat.fin 1] [NFloat.fin 5] rfl rfl rfl rfl
    (by intro x hx; rw [List.mem_singleton] at hx; exact ⟨3, by norm_num, hx⟩)
    (by intro x hx; rw [List.mem_singleton] at hx; exact hx)

/-- C10: in fluorescence (the non-root-finding variant), at an element where
slow_events and fast_events are both 0 the live-time ratio 0/0 is NaN and
nan_to_num replaces it by 0, so the returned element is the raw fluorescence
divided by zero, propagated through the remaining stages: +infinity when the
raw value is positive and NaN when it is 0 — not the uncorrected raw value. -/
theorem C10_zero_events_element
    (raw_fluorescence slow_events fast_events radiography reference : List NFloat)
    (i : ℕ) (c : ℝ)
    (hls : slow_events.length = raw_fluorescence.length)
    (hlf : fast_events.length = raw_fluorescence.length)
    (hlrad : radiography.length = raw_fluorescence.length)
    (hlref : reference.length = raw_fluorescence.length)
    (hi : i < raw_fluorescence.length)
    (hs : slow_events.getD i NFloat.nan = NFloat.fin 0)
    (hf : fast_events.getD i NFloat.nan = NFloat.fin 0)
    (hc : 0 < c) (href : reference.getD i NFloat.nan = NFloat.fin c)
    (hrad : radiography.getD i NFloat.nan = NFloat.fin 1) :
    NFloat.div (NFloat.fin 0) (NFloat.fin 0) = NFloat.nan ∧
    NFloat.nan_to_num (NFloat.div (NFloat.fin 0) (NFloat.fin 0)) = NFloat.fin 0 ∧
    (∀ p : ℝ, 0 < p → raw_fluorescence.getD i NFloat.nan = NFloat.fin p →
      (fcompute_fluorescence raw_fluorescence slow_events fast_events radiography
        reference 0 false).getD i NFloat.nan = NFloat.inf) ∧
    (raw_fluorescence.getD i NFloat.nan = NFloat.fin 0 →
      (fcompute_fluorescence raw_fluorescence slow_events fast_events radiography
        reference 0 false).getD i NFloat.nan = NFloat.nan) := by
  have hunfold : fcompute_fluorescence raw_fluorescence slow_events fast_events
      radiography reference 0 false =
      List.zipWith NFloat.div
        (List.zipWith NFloat.div
          (List.zipWith NFloat.div raw_fluorescence
            ((List.zipWith NFloat.div slow_events fast_events).map NFloat.nan_to_num))
          reference)
        (fcorrect_incident_intensity_colocated
          (if (0:ℝ) ≠ 0 then radiography.map (fun x => NFloat.mul x (NFloat.fin 0))
            else radiography.map (fun x => NFloat.neg (NFloat.log x)))) := rfl
  rw [if_neg (show ¬((0:ℝ) ≠ 0) by norm_num)] at hunfold
  have hzip_len : (List.zipWith NFloat.div slow_events fast_events).length =
      raw_fluorescence.length := by
    simp [List.length_zipWith, hls, hlf]
  have hlive_len : ((List.zipWith NFloat.div slow_events fast_events).map
      NFloat.nan_to_num).length = raw_fluorescence.length := by
    simp [List.length_zipWith, hls, hlf]
  have hlive : ((List.zipWith NFloat.div slow_events fast_events).map
      NFloat.nan_to_num).getD i NFloat.nan = NFloat.fin 0 := by
    rw [getD_map_of_lt _ _ i (by rw [hzip_len]; exact hi),
      getD_zipWith_of_lt _ _ _ i (by rw [hls]; exact hi) (by rw [hlf]; exact hi),
      hs, hf, nf_div_zero_zero]
    rfl
  have hext_len : (radiography.map (fun x => NFloat.neg (NFloat.log x))).length =
      raw_fluorescence.length := by simp [hlrad]
  have hcorr_len : (fcorrect_incident_intensity_colocated
      (radiography.map (fun x => NFloat.neg (NFloat.log x)))).length =
      raw_fluorescence.length := by
    simp [fcorrect_incident_intensity_colocated, hlrad]
  have hcorr : (fcorrect_incident_intensity_colocated
      (radiography.map (fun x => NFloat.neg (NFloat.log x)))).getD i NFloat.nan =
      NFloat.fin 1 := by
    have h1 := getD_map_of_lt
      (fun L => if nf_is_sig L then
        NFloat.div (NFloat.sub (NFloat.fin 1) (NFloat.exp (NFloat.neg L))) L
      else NFloat.fin 1)
      (radiography.map (fun x => NFloat.neg (NFloat.log x))) i
      (by rw [hext_len]; exact hi) NFloat.nan
    have h2 : (radiography.map (fun x => NFloat.neg (NFloat.log x))).getD i NFloat.nan =
        NFloat.fin 0 := by
      rw [getD_map_of_lt _ _ i (by rw [hlrad]; exact hi), hrad, nf_log_one, nf_neg_zero]
    rw [h2] at h1
    rw [show fcorrect_incident_intensity_colocated
        (radiography.map (fun x => NFloat.neg (NFloat.log x))) =
      (radiography.map (fun x => NFloat.neg (NFloat.log x))).map
        (fun L => if nf_is_sig L then
          NFloat.div (NFloat.sub (NFloat.fin 1) (NFloat.exp (NFloat.neg L))) L
        else NFloat.fin 1) from rfl]
    rw [h1, if_neg (by rw [nf_is_sig_fin_iff]; norm_num)]
  have hf1_len : (List.zipWith NFloat.div raw_fluorescence
      ((List.zipWith NFloat.div slow_events fast_events).map NFloat.nan_to_num)).length =
      raw_fluorescence.length := by
    simp [List.length_zipWith, hlive_len]
  have hf2_len : (List.zipWith NFloat.div
      (List.zipWith NFloat.div raw_fluorescence
        ((List.zipWith NFloat.div slow_events fast_events).map NFloat.nan_to_num))
      reference).length = raw_fluorescence.length := by
    simp [List.length_zipWith, hf1_len, hlref]
  have hres : (fcompute_fluorescence raw_fluorescence slow_events fast_events
      radiography reference 0 false).getD i NFloat.nan =
      NFloat.div (NFloat.div (NFloat.div (raw_fluorescence.getD i NFloat.nan)
        (NFloat.fin 0)) (NFloat.fin c)) (NFloat.fin 1) := by
    rw [hunfold,
      getD_zipWith_of_lt _ _ _ i (by rw [hf2_len]; exact hi) (by rw [hcorr_len]; exact hi),
      getD_zipWith_of_lt _ _ _ i (by rw [hf1_len]; exact hi) (by rw [hlref]; exact hi),
      getD_zipWith_of_lt _ _ _ i hi (by rw [hlive_len]; exact hi),
      hlive, href, hcorr]
  refine ⟨nf_div_zero_zero, by rw [nf_div_zero_zero]; rfl, ?_, ?_⟩
  · intro p hp hraw
    rw [hres, hraw, nf_div_pos_zero hp, nf_div_inf_fin_pos hc, nf_div_one]
  · intro hraw
    rw [hres, hraw, nf_div_zero_zero, nf_div_nan_left, nf_div_nan_left]

/-- Witness for C10 at a concrete element with zero slow and fast events and
positive raw fluorescence: the returned element is +infinity. -/
theorem C10_witness :
    (fcompute_fluorescence [NFloat.fin 2] [NFloat.fin 0] [NFloat.fin 0] [NFloat.fin 1]
      [NFloat.fin 5] 0 false).getD 0 NFloat.nan = NFloat.inf :=
  (C10_zero_events_element [NFloat.fin 2] [NFloat.fin 0] [NFloat.fin 0] [NFloat.fin 1]
    [NFloat.fin 5] 0 5 rfl rfl rfl rfl (by norm_num) rfl rfl (by norm_num) rfl
    rfl).2.2.1 2 (by norm_num) rfl

/-- C1 at the failing input: on a 2x2 fast_events array fcorrect_deadtime
does not solve per element and return an array of the original shape — it
raises, for every possible brentq oracle, because the loop indexes the
un-flattened fast_countrate, so fast_countrate[i] is a whole row and cannot
be converted to the scalar bracket endpoints brentq requires; independently,
the reshape of the fitted rates back to the original shape is computed but
its result is discarded. -/
theorem C1_multidim_deadtime_raises :
    ∀ brentq,
      fcorrect_deadtime_nd brentq
        (NDArray.mk [2, 2] [NFloat.fin 100000, NFloat.fin 100000, NFloat.fin 100000,
          NFloat.fin 100000])
        (NDArray.mk [2, 2] [NFloat.fin 100000, NFloat.fin 100000, NFloat.fin 100000,
          NFloat.fin 100000])
        (NDArray.mk [2, 2] [NFloat.fin 100000, NFloat.fin 100000, NFloat.fin 100000,
          NFloat.fin 100000])
        1 (3.15e-7) = none :=
  fun _ => rfl
